import Mathlib

/-!
# Verification of the monetra-core arithmetic engine

A shallow embedding of the core algorithms of the `monetra.core` TypeScript
repository, together with theorems settling the specification claims.

JavaScript `bigint` values are modelled as `Int`.  JavaScript `bigint`
division `/` truncates toward zero and `%` takes the sign of the dividend,
so they are modelled by `Int.tdiv` and `Int.tmod`.  Thrown JavaScript
exceptions are modelled by an explicit error type returned through `Except`.
-/

namespace Monetra

/--
Errors thrown by the embedded code.  Each constructor records the JavaScript
class of the thrown object, so that errors deliberately raised by the library
(`Error`, `RoundingRequiredError`, `InvalidPrecisionError`,
`CurrencyMismatchError`) stay distinguishable from errors raised by the
JavaScript platform itself (`RangeError` from a `bigint` division by zero,
`SyntaxError` from `BigInt(string)`, `TypeError` from an out-of-range
element access).
-/
inductive JsError where
  /-- a plain `new Error(msg)` thrown by the library -/
  | error (msg : String)
  /-- a platform `RangeError` (thrown by `bigint` `/` or `%` with zero divisor) -/
  | rangeError (msg : String)
  /-- a platform `SyntaxError` (thrown by `BigInt(string)` on malformed input) -/
  | syntaxError (msg : String)
  /-- a platform `TypeError` (e.g. member access on `undefined`) -/
  | typeError (msg : String)
  /-- `RoundingRequiredError` from `src/errors`, carrying the operation name -/
  | roundingRequired (op : String)
  /-- `InvalidPrecisionError` from `src/errors`, carrying the offending digit
  count and the currency's limit -/
  | invalidPrecision (got limit : Nat)
  /-- `CurrencyMismatchError` from `src/errors` -/
  | currencyMismatch (expected received : String)
deriving DecidableEq

/-- The closed enumeration of rounding policies (`src/rounding/strategies.ts`). -/
inductive RoundingMode where
  | HALF_UP
  | HALF_DOWN
  | HALF_EVEN
  | FLOOR
  | CEIL
  | TRUNCATE
deriving DecidableEq

/-- `x < 0n ? -x : x`, the absolute-value idiom used in `divideWithRounding`. -/
def absInt (x : Int) : Int := if x < 0 then -x else x

/--
`!isNegativeResult` from `divideWithRounding`:
the JavaScript code computes `isNegativeResult = (numerator < 0n) !== (denominator < 0n)`
and `isPositiveResult = !isNegativeResult`.
-/
def positiveResult (n d : Int) : Bool := decide (n < 0) == decide (d < 0)

/--
Embedding of `divideWithRounding` (`src/rounding/index.ts`).  The source
computes `quotient = numerator / denominator` (bigint truncating division)
and `remainder = numerator % denominator`, returns the quotient when the
remainder is zero, and otherwise adjusts it according to the rounding mode,
comparing `2 * |remainder|` against `|denominator|`.  A zero denominator is
rejected up front with `new Error("Division by zero")`.
-/
def divideWithRounding (n d : Int) (mode : RoundingMode) : Except JsError Int :=
  if d = 0 then .error (.error "Division by zero")
  else if n.tmod d = 0 then .ok (n.tdiv d)
  else
    match mode with
    | .FLOOR => .ok (if positiveResult n d then n.tdiv d else n.tdiv d - 1)
    | .CEIL => .ok (if positiveResult n d then n.tdiv d + 1 else n.tdiv d)
    | .HALF_UP =>
      if absInt (n.tmod d) * 2 > absInt d ∨ absInt (n.tmod d) * 2 = absInt d then
        .ok (if positiveResult n d then n.tdiv d + 1 else n.tdiv d - 1)
      else .ok (n.tdiv d)
    | .HALF_DOWN =>
      if absInt (n.tmod d) * 2 > absInt d then
        .ok (if positiveResult n d then n.tdiv d + 1 else n.tdiv d - 1)
      else .ok (n.tdiv d)
    | .HALF_EVEN =>
      if absInt (n.tmod d) * 2 > absInt d then
        .ok (if positiveResult n d then n.tdiv d + 1 else n.tdiv d - 1)
      else if absInt (n.tmod d) * 2 = absInt d ∧ (n.tdiv d).tmod 2 ≠ 0 then
        .ok (if positiveResult n d then n.tdiv d + 1 else n.tdiv d - 1)
      else .ok (n.tdiv d)
    | .TRUNCATE => .ok (n.tdiv d)

/--
The rounding table exactly as the specification words it (section 4.2):
`q` is the truncating quotient, the sign of the exact quotient is positive
iff numerator and denominator have the same sign, the remainder is
classified by comparing `2 * |r|` with `|d|`, and `away(q)` increments the
magnitude of `q` by one away from zero.  This definition is written from the
spec's policy table, to be compared against `divideWithRounding`.
-/
def roundSpecTable (n d : Int) (mode : RoundingMode) : Int :=
  let q := n.tdiv d
  let r := n.tmod d
  let positive := (n < 0 ↔ d < 0)
  let away := if positive then q + 1 else q - 1
  let lessHalf := 2 * |r| < |d|
  let exactHalf := 2 * |r| = |d|
  match mode with
  | .FLOOR => if positive then q else q - 1
  | .CEIL => if positive then q + 1 else q
  | .TRUNCATE => q
  | .HALF_UP => if lessHalf then q else away
  | .HALF_DOWN => if lessHalf ∨ exactHalf then q else away
  | .HALF_EVEN =>
    if lessHalf then q
    else if exactHalf then (if q % 2 = 0 then q else away)
    else away

theorem absInt_eq_abs (x : Int) : absInt x = |x| := by
  unfold absInt
  split
  · exact (abs_of_neg (by assumption)).symm
  · exact (abs_of_nonneg (le_of_not_lt (by assumption))).symm

theorem positiveResult_iff (n d : Int) :
    positiveResult n d = true ↔ (n < 0 ↔ d < 0) := by
  unfold positiveResult
  rw [beq_iff_eq, decide_eq_decide]

theorem neg_tmod (a b : Int) : (-a).tmod b = -(a.tmod b) := by
  rw [Int.tmod_def, Int.tmod_def, Int.neg_tdiv]
  ring

theorem tmod_abs_lt (n : Int) {d : Int} (hd : d ≠ 0) : |n.tmod d| < |d| := by
  rcases lt_or_gt_of_ne hd with h | h
  · have h1 : n.tmod (-d) < -d := Int.tmod_lt_of_pos n (by omega)
    have h2 : (-n).tmod (-d) < -d := Int.tmod_lt_of_pos (-n) (by omega)
    rw [Int.tmod_neg] at h1 h2
    rw [neg_tmod] at h2
    rw [abs_of_neg h]
    rw [abs_lt]
    omega
  · have h1 : n.tmod d < d := Int.tmod_lt_of_pos n h
    have h2 : (-n).tmod d < d := Int.tmod_lt_of_pos (-n) h
    rw [neg_tmod] at h2
    rw [abs_of_pos h, abs_lt]
    omega

theorem tmod_sign_nonneg {n : Int} (d : Int) (hn : 0 ≤ n) : 0 ≤ n.tmod d :=
  Int.tmod_nonneg d hn

theorem tmod_sign_nonpos {n : Int} (d : Int) (hn : n ≤ 0) : n.tmod d ≤ 0 := by
  have := Int.tmod_nonneg (a := -n) d (by omega)
  rw [neg_tmod] at this
  omega

theorem tmod_two_eq_zero_iff (q : Int) : q.tmod 2 = 0 ↔ q % 2 = 0 := by
  rw [← Int.dvd_iff_tmod_eq_zero]
  exact ⟨Int.emod_eq_zero_of_dvd, Int.dvd_of_emod_eq_zero⟩

/--
**C3.** For every numerator `n`, nonzero denominator `d` and rounding policy,
if `n % d = 0` then `divideWithRounding` returns exactly the quotient
`n / d` (and that quotient is exact: `d * (n / d) = n`); no policy branch
alters an exact result.
-/
theorem roundedDivide_exact (n d : Int) (mode : RoundingMode)
    (hd : d ≠ 0) (hr : n.tmod d = 0) :
    divideWithRounding n d mode = .ok (n.tdiv d) ∧ d * n.tdiv d = n := by
  have key : d * n.tdiv d + n.tmod d = n := Int.tdiv_add_tmod n d
  refine ⟨?_, by omega⟩
  unfold divideWithRounding
  rw [if_neg hd, if_pos hr]

theorem roundedDivide_exact_witness :
    (3 : Int) ≠ 0 ∧ (6 : Int).tmod 3 = 0 ∧
      (divideWithRounding 6 3 .HALF_UP = .ok ((6 : Int).tdiv 3) ∧
        (3 : Int) * (6 : Int).tdiv 3 = 6) :=
  ⟨by decide, by decide, roundedDivide_exact 6 3 .HALF_UP (by decide) (by decide)⟩

theorem ite_positiveResult {α : Sort _} (n d : Int) (a b : α) :
    (if positiveResult n d then a else b) = if n < 0 ↔ d < 0 then a else b := by
  by_cases hp : (n < 0 ↔ d < 0)
  · rw [(positiveResult_iff n d).mpr hp, if_pos hp]
    simp
  · have hb : positiveResult n d = false := by
      rw [← Bool.not_eq_true]
      exact fun h => hp ((positiveResult_iff n d).mp h)
    rw [hb, if_neg hp]
    simp

theorem roundTable_agrees (n d : Int) (mode : RoundingMode)
    (hd : d ≠ 0) (hr : n.tmod d ≠ 0) :
    divideWithRounding n d mode = .ok (roundSpecTable n d mode) := by
  have habs : |n.tmod d| < |d| := tmod_abs_lt n hd
  have hdpos : 0 < |d| := abs_pos.mpr hd
  have hparity := tmod_two_eq_zero_iff (n.tdiv d)
  cases mode with
  | FLOOR =>
    simp only [divideWithRounding, roundSpecTable, if_neg hd, if_neg hr,
      absInt_eq_abs, ite_positiveResult]
  | CEIL =>
    simp only [divideWithRounding, roundSpecTable, if_neg hd, if_neg hr,
      absInt_eq_abs, ite_positiveResult]
  | TRUNCATE =>
    simp only [divideWithRounding, roundSpecTable, if_neg hd, if_neg hr,
      absInt_eq_abs, ite_positiveResult]
  | HALF_UP =>
    simp only [divideWithRounding, roundSpecTable, if_neg hd, if_neg hr,
      absInt_eq_abs, ite_positiveResult]
    rw [mul_comm (|n.tmod d|) 2]
    by_cases h1 : 2 * |n.tmod d| < |d|
    · rw [if_neg (show ¬(2 * |n.tmod d| > |d| ∨ 2 * |n.tmod d| = |d|) by omega),
        if_pos h1]
    · rw [if_pos (show 2 * |n.tmod d| > |d| ∨ 2 * |n.tmod d| = |d| by omega),
        if_neg h1]
  | HALF_DOWN =>
    simp only [divideWithRounding, roundSpecTable, if_neg hd, if_neg hr,
      absInt_eq_abs, ite_positiveResult]
    rw [mul_comm (|n.tmod d|) 2]
    by_cases h1 : 2 * |n.tmod d| > |d|
    · rw [if_pos h1,
        if_neg (show ¬(2 * |n.tmod d| < |d| ∨ 2 * |n.tmod d| = |d|) by omega)]
    · rw [if_neg h1,
        if_pos (show 2 * |n.tmod d| < |d| ∨ 2 * |n.tmod d| = |d| by omega)]
  | HALF_EVEN =>
    simp only [divideWithRounding, roundSpecTable, if_neg hd, if_neg hr,
      absInt_eq_abs, ite_positiveResult]
    rw [mul_comm (|n.tmod d|) 2]
    by_cases h1 : 2 * |n.tmod d| > |d|
    · rw [if_pos h1, if_neg (show ¬2 * |n.tmod d| < |d| by omega),
        if_neg (show ¬2 * |n.tmod d| = |d| by omega)]
    · rw [if_neg h1]
      by_cases h2 : 2 * |n.tmod d| = |d|
      · rw [if_neg (show ¬2 * |n.tmod d| < |d| by omega), if_pos h2]
        by_cases h3 : n.tdiv d % 2 = 0
        · rw [if_neg (show ¬(2 * |n.tmod d| = |d| ∧ (n.tdiv d).tmod 2 ≠ 0) from
            fun hcon => hcon.2 (hparity.mpr h3)), if_pos h3]
        · rw [if_pos (show 2 * |n.tmod d| = |d| ∧ (n.tdiv d).tmod 2 ≠ 0 from
            ⟨h2, fun h => h3 (hparity.mp h)⟩), if_neg h3]
      · rw [if_neg (show ¬(2 * |n.tmod d| = |d| ∧ (n.tdiv d).tmod 2 ≠ 0) from
          fun hcon => h2 hcon.1), if_pos (show 2 * |n.tmod d| < |d| by omega)]

/--
**C2.** Whenever the division is inexact (`n % d ≠ 0`, `d ≠ 0`),
`divideWithRounding` returns exactly the value given by the specification's
six-policy table (`roundSpecTable`): FLOOR toward −∞, CEIL toward +∞,
TRUNCATE the truncated quotient, HALF_UP away on half and more, HALF_DOWN
away only on more than half, HALF_EVEN away on more than half and, on an
exact half, away iff the quotient is odd.  In particular `5/2` gives
`HALF_UP = 3`, `HALF_DOWN = 2`, `HALF_EVEN = 2`; `7/2` gives
`HALF_EVEN = 4`; `-35/10` gives `HALF_EVEN = -4`.
-/
theorem rounding_policy_table :
    (∀ n d mode, d ≠ 0 → n.tmod d ≠ 0 →
      divideWithRounding n d mode = .ok (roundSpecTable n d mode)) ∧
    divideWithRounding 5 2 .HALF_UP = .ok 3 ∧
    divideWithRounding 5 2 .HALF_DOWN = .ok 2 ∧
    divideWithRounding 5 2 .HALF_EVEN = .ok 2 ∧
    divideWithRounding 7 2 .HALF_EVEN = .ok 4 ∧
    divideWithRounding (-35) 10 .HALF_EVEN = .ok (-4) :=
  ⟨fun n d mode hd hr => roundTable_agrees n d mode hd hr, rfl, rfl, rfl, rfl, rfl⟩

theorem rounding_policy_table_witness :
    (2 : Int) ≠ 0 ∧ (5 : Int).tmod 2 ≠ 0 ∧
      divideWithRounding 5 2 .HALF_EVEN = .ok (roundSpecTable 5 2 .HALF_EVEN) :=
  ⟨by decide, by decide, rounding_policy_table.1 5 2 .HALF_EVEN (by decide) (by decide)⟩

/--
**C6.** For every numerator and every rounding policy, a zero denominator
makes `divideWithRounding` signal the library's deliberate
`Error("Division by zero")` — the guard runs before any platform `bigint`
operation, so no platform-level `RangeError` trap occurs and no result value
is ever returned.
-/
theorem roundedDivide_zero_denominator (n : Int) (mode : RoundingMode) :
    divideWithRounding n 0 mode = .error (.error "Division by zero") := by
  unfold divideWithRounding
  rw [if_pos rfl]

/--
**C10.** For every numerator `n`, nonzero denominator `d` and rounding
policy, the result `res` of `divideWithRounding` satisfies
`|n - res * d| < |d|`: the rounded quotient never deviates from the exact
quotient by one whole unit or more (it is always the floor or the ceiling
of the exact quotient).
-/
theorem roundedDivide_within_one_unit (n d : Int) (mode : RoundingMode)
    (res : Int) (hd : d ≠ 0)
    (h : divideWithRounding n d mode = .ok res) :
    |n - res * d| < |d| := by
  have key : d * n.tdiv d + n.tmod d = n := Int.tdiv_add_tmod n d
  have habs : |n.tmod d| < |d| := tmod_abs_lt n hd
  unfold divideWithRounding at h
  rw [if_neg hd] at h
  by_cases hr : n.tmod d = 0
  · rw [if_pos hr] at h
    injection h with h
    subst h
    have hz : n - n.tdiv d * d = 0 := by
      rw [mul_comm]
      omega
    rw [hz]
    simpa using abs_pos.mpr hd
  · rw [if_neg hr] at h
    -- every branch returns q, or q+1 under a positive result,
    -- or q-1 under a negative result
    have main : ∀ res',
        (res' = n.tdiv d ∨
          ((n < 0 ↔ d < 0) ∧ res' = n.tdiv d + 1) ∨
          (¬(n < 0 ↔ d < 0) ∧ res' = n.tdiv d - 1)) →
        |n - res' * d| < |d| := by
      intro res' hcase
      have hs1 : 0 ≤ n → 0 ≤ n.tmod d := tmod_sign_nonneg d
      have hs2 : n ≤ 0 → n.tmod d ≤ 0 := tmod_sign_nonpos d
      have hb := abs_lt.mp habs
      rcases hcase with hq | ⟨hp, hq⟩ | ⟨hp, hq⟩
      · subst hq
        have e : n - n.tdiv d * d = n.tmod d := by
          rw [mul_comm]
          omega
        rw [e]
        exact habs
      · subst hq
        have e : n - (n.tdiv d + 1) * d = n.tmod d - d := by
          have e2 : (n.tdiv d + 1) * d = d * n.tdiv d + d := by ring
          omega
        rw [e, abs_lt]
        rcases lt_or_gt_of_ne hd with hdn | hdp
        · -- d < 0, same sign, so n < 0 and the remainder is nonpositive
          have hn : n < 0 := by
            by_contra hcon
            exact absurd (hp.mpr hdn) hcon
          rw [abs_of_neg hdn] at hb ⊢
          have := hs2 (le_of_lt hn)
          omega
        · -- d > 0, same sign, so n ≥ 0 and the remainder is nonnegative
          have hn : 0 ≤ n :=
            le_of_not_lt fun hneg => absurd (hp.mp hneg) (by omega)
          rw [abs_of_pos hdp] at hb ⊢
          have := hs1 hn
          omega
      · subst hq
        have e : n - (n.tdiv d - 1) * d = n.tmod d + d := by
          have e2 : (n.tdiv d - 1) * d = d * n.tdiv d - d := by ring
          omega
        rw [e, abs_lt]
        rcases lt_or_gt_of_ne hd with hdn | hdp
        · -- d < 0, opposite signs, so n ≥ 0 and the remainder is nonnegative
          have hn : 0 ≤ n :=
            le_of_not_lt fun hneg => hp ⟨fun _ => hdn, fun _ => hneg⟩
          rw [abs_of_neg hdn] at hb ⊢
          have := hs1 hn
          omega
        · -- d > 0, opposite signs, so n < 0 and the remainder is nonpositive
          have hn : n < 0 := by
            by_contra hcon
            exact hp ⟨fun h => absurd h hcon, fun h => absurd h (by omega)⟩
          rw [abs_of_pos hdp] at hb ⊢
          have := hs2 (le_of_lt hn)
          omega
    cases mode with
    | FLOOR =>
      simp only [ite_positiveResult] at h
      by_cases hp : (n < 0 ↔ d < 0)
      · rw [if_pos hp] at h
        injection h with h
        exact main res (.inl h.symm)
      · rw [if_neg hp] at h
        injection h with h
        exact main res (.inr (.inr ⟨hp, h.symm⟩))
    | CEIL =>
      simp only [ite_positiveResult] at h
      by_cases hp : (n < 0 ↔ d < 0)
      · rw [if_pos hp] at h
        injection h with h
        exact main res (.inr (.inl ⟨hp, h.symm⟩))
      · rw [if_neg hp] at h
        injection h with h
        exact main res (.inl h.symm)
    | TRUNCATE =>
      injection h with h
      exact main res (.inl h.symm)
    | HALF_UP =>
      simp only [ite_positiveResult] at h
      split at h
      all_goals
        by_cases hp : (n < 0 ↔ d < 0)
      · rw [if_pos hp] at h
        injection h with h
        exact main res (.inr (.inl ⟨hp, h.symm⟩))
      · rw [if_neg hp] at h
        injection h with h
        exact main res (.inr (.inr ⟨hp, h.symm⟩))
      · injection h with h
        exact main res (.inl h.symm)
      · injection h with h
        exact main res (.inl h.symm)
    | HALF_DOWN =>
      simp only [ite_positiveResult] at h
      split at h
      all_goals
        by_cases hp : (n < 0 ↔ d < 0)
      · rw [if_pos hp] at h
        injection h with h
        exact main res (.inr (.inl ⟨hp, h.symm⟩))
      · rw [if_neg hp] at h
        injection h with h
        exact main res (.inr (.inr ⟨hp, h.symm⟩))
      · injection h with h
        exact main res (.inl h.symm)
      · injection h with h
        exact main res (.inl h.symm)
    | HALF_EVEN =>
      simp only [ite_positiveResult] at h
      split at h
      · by_cases hp : (n < 0 ↔ d < 0)
        · rw [if_pos hp] at h
          injection h with h
          exact main res (.inr (.inl ⟨hp, h.symm⟩))
        · rw [if_neg hp] at h
          injection h with h
          exact main res (.inr (.inr ⟨hp, h.symm⟩))
      · split at h
        · by_cases hp : (n < 0 ↔ d < 0)
          · rw [if_pos hp] at h
            injection h with h
            exact main res (.inr (.inl ⟨hp, h.symm⟩))
          · rw [if_neg hp] at h
            injection h with h
            exact main res (.inr (.inr ⟨hp, h.symm⟩))
        · injection h with h
          exact main res (.inl h.symm)

theorem roundedDivide_within_one_unit_witness :
    (3 : Int) ≠ 0 ∧ divideWithRounding 10 3 .HALF_UP = .ok 3 ∧
      |(10 : Int) - 3 * 3| < |(3 : Int)| :=
  ⟨by decide, rfl, roundedDivide_within_one_unit 10 3 .HALF_UP 3 (by decide) rfl⟩

/-!
## String parsing layer

JavaScript strings are modelled through their character lists.
`String.prototype.split(".")` is modelled by `splitOnChar '.'` and the
`BigInt(string)` constructor by `jsBigInt` (which accepts an empty string as
`0n`, an optional sign followed by decimal digits, and otherwise throws a
platform `SyntaxError`, modelled as `none`).
-/

/-- JavaScript `s.split(sep)` for a one-character separator:
`"".split(".") = [""]`, `"a..b".split(".") = ["a", "", "b"]`. -/
def splitOnChar (sep : Char) : List Char → List (List Char)
  | [] => [[]]
  | c :: rest =>
    match splitOnChar sep rest with
    | [] => if c = sep then [[], [c]] else [[c]]
    | h :: t => if c = sep then [] :: h :: t else (c :: h) :: t

/-- Decimal digits to a natural number; `none` unless the list is a nonempty
list of digits. -/
def digitsToNat : Nat → List Char → Option Nat
  | _, [] => none
  | acc, [c] => if c.isDigit then some (acc * 10 + (c.toNat - 48)) else none
  | acc, c :: rest =>
    if c.isDigit then digitsToNat (acc * 10 + (c.toNat - 48)) rest else none

/-- JavaScript `BigInt(string)`: the empty string is `0n`, otherwise an
optional sign followed by decimal digits; anything else throws a
`SyntaxError`, modelled as `none`. -/
def jsBigInt : List Char → Option Int
  | [] => some 0
  | '-' :: rest => (digitsToNat 0 rest).map fun v => -(v : Int)
  | '+' :: rest => (digitsToNat 0 rest).map fun v => (v : Int)
  | cs => (digitsToNat 0 cs).map fun v => (v : Int)

/--
Embedding of `parseMultiplier` (`src/money/arithmetic.ts`): derives the
exact ratio `numerator / denominator` of a decimal-literal scalar by
splitting on the decimal point, with `denominator = 10 ^ (fractional digit
count)` and `numerator = BigInt(integerPart + fractionalPart)`.  Rejects
scientific notation and more than one decimal point with plain `Error`s;
a failing `BigInt` conversion is the platform's `SyntaxError`.
-/
def parseMultiplier (s : String) : Except JsError (Int × Int) :=
  let cs := s.toList
  if cs.any fun c => c = 'e' ∨ c = 'E' then
    .error (.error "Scientific notation not supported")
  else
    let parts := splitOnChar '.' cs
    if parts.length > 2 then .error (.error "Invalid number format")
    else
      let integerPart := parts.headD []
      let fractionalPart := (parts.drop 1).headD []
      match jsBigInt (integerPart ++ fractionalPart) with
      | none => .error (.syntaxError "Cannot convert string to a BigInt")
      | some numerator => .ok (numerator, 10 ^ fractionalPart.length)

/--
Embedding of `multiply` (`src/money/arithmetic.ts`): computes
`product = amount * numerator`; if `product % denominator == 0n` it returns
the exact quotient, otherwise it throws `RoundingRequiredError` when no
rounding mode was provided and delegates to `divideWithRounding` when one
was.
-/
def multiply (amount : Int) (multiplier : String)
    (rounding : Option RoundingMode) : Except JsError Int :=
  match parseMultiplier multiplier with
  | .error e => .error e
  | .ok (numerator, denominator) =>
    if (amount * numerator).tmod denominator = 0 then
      .ok ((amount * numerator).tdiv denominator)
    else
      match rounding with
      | none => .error (.roundingRequired "multiply")
      | some mode => divideWithRounding (amount * numerator) denominator mode

/--
Embedding of `divide` (`src/money/arithmetic.ts`): computes
`product = amount * denominator` and divides by `numerator`.  The source has
no zero check here: when the parsed numerator is `0n`, the JavaScript
expression `product % numerator` itself throws a platform
`RangeError("Division by zero")` before any rounding logic runs.
-/
def divide (amount : Int) (divisor : String)
    (rounding : Option RoundingMode) : Except JsError Int :=
  match parseMultiplier divisor with
  | .error e => .error e
  | .ok (numerator, denominator) =>
    if numerator = 0 then .error (.rangeError "Division by zero")
    else if (amount * denominator).tmod numerator = 0 then
      .ok ((amount * denominator).tdiv numerator)
    else
      match rounding with
      | none => .error (.roundingRequired "divide")
      | some mode => divideWithRounding (amount * denominator) numerator mode

/--
**C4.** For every amount and every multiplier literal that parses to the
exact ratio `numerator / denominator`: `multiply` returns the exact
quotient without needing a policy whenever `(amount * numerator) %
denominator == 0`; on an inexact division it signals `RoundingRequired`
when no policy is supplied and returns the Rounding Engine's result for
`(amount * numerator, denominator, policy)` when one is.  In particular
`multiply 100 "0.555"` signals `RoundingRequired` without a policy, yields
`56` under HALF_UP and `55` under FLOOR.
-/
theorem multiply_exact_ratio_contract :
    (∀ amount s numerator denominator rounding,
      parseMultiplier s = .ok (numerator, denominator) →
      ((amount * numerator).tmod denominator = 0 →
        multiply amount s rounding = .ok ((amount * numerator).tdiv denominator)) ∧
      ((amount * numerator).tmod denominator ≠ 0 →
        multiply amount s none = .error (.roundingRequired "multiply") ∧
        ∀ mode, multiply amount s (some mode) =
          divideWithRounding (amount * numerator) denominator mode)) ∧
    multiply 100 "0.555" none = .error (.roundingRequired "multiply") ∧
    multiply 100 "0.555" (some .HALF_UP) = .ok 56 ∧
    multiply 100 "0.555" (some .FLOOR) = .ok 55 := by
  refine ⟨?_, rfl, rfl, rfl⟩
  intro amount s numerator denominator rounding hparse
  constructor
  · intro hexact
    simp only [multiply, hparse]
    rw [if_pos hexact]
  · intro hinexact
    constructor
    · simp only [multiply, hparse]
      rw [if_neg hinexact]
    · intro mode
      simp only [multiply, hparse]
      rw [if_neg hinexact]

theorem multiply_exact_ratio_contract_witness :
    parseMultiplier "0.5" = .ok (5, 10) ∧
      ((100 : Int) * 5).tmod 10 = 0 ∧
      multiply 100 "0.5" none = .ok (((100 : Int) * 5).tdiv 10) :=
  ⟨rfl, by decide,
    ((multiply_exact_ratio_contract.1 100 "0.5" 5 10 none rfl).1 (by decide))⟩

/-- Currency metadata; only `code` and `decimals` affect the embedded
algorithms (`src/currency/Currency.ts`). -/
structure Currency where
  code : String
  decimals : Nat
deriving DecidableEq

/-- The final `BigInt(combined)` call of `parseToMinor`: a successful
conversion is the parsed value, a failing one is the platform's
`SyntaxError`. -/
def bigIntToResult : Option Int → Except JsError Int
  | none => .error (.syntaxError "Cannot convert string to a BigInt")
  | some v => .ok v

/--
Embedding of `parseToMinor` (`src/format/parser.ts`).  In source order:
reject `e`/`E` (scientific notation), any character outside `[0-9.-]`, a
string with no digits, more than one decimal point — each with a plain
`Error` (the spec's `Format` kind).  Then a fractional part longer than the
currency's decimals throws the distinct `InvalidPrecisionError` carrying the
digit count and the limit.  Otherwise the fractional part is right-padded
with zeros to `decimals` digits, concatenated after the integer part and
converted with `BigInt`.
-/
def parseToMinor (amount : String) (c : Currency) : Except JsError Int :=
  let cs := amount.toList
  if cs.any fun ch => ch = 'e' ∨ ch = 'E' then
    .error (.error "Scientific notation not supported")
  else if cs.any fun ch => ¬(ch.isDigit ∨ ch = '.' ∨ ch = '-') then
    .error (.error "Invalid characters in amount")
  else if ¬cs.any Char.isDigit then
    .error (.error "Invalid format")
  else
    let parts := splitOnChar '.' cs
    if parts.length > 2 then
      .error (.error "Invalid format: multiple decimal points")
    else
      let integerPart := parts.headD []
      let fractionalPart := (parts.drop 1).headD []
      if fractionalPart.length > c.decimals then
        .error (.invalidPrecision fractionalPart.length c.decimals)
      else
        let padded := fractionalPart ++
          List.replicate (c.decimals - fractionalPart.length) '0'
        bigIntToResult (jsBigInt (integerPart ++ padded))

/-- The malformed-literal conditions enumerated by the specification for
`parseToMinor`: scientific notation, a character outside `[0-9.-]`, no
digits at all, or more than one decimal point. -/
def malformedLiteral (amount : String) : Prop :=
  (amount.toList.any fun ch => ch = 'e' ∨ ch = 'E') = true ∨
  (amount.toList.any fun ch => ¬(ch.isDigit ∨ ch = '.' ∨ ch = '-')) = true ∨
  (amount.toList.any Char.isDigit) = false ∨
  (splitOnChar '.' amount.toList).length > 2

instance (amount : String) : Decidable (malformedLiteral amount) := by
  unfold malformedLiteral
  infer_instance

/-- The fractional-digit count `parseToMinor` checks against the currency's
decimals: the length of `parts[1]` after splitting on the decimal point. -/
def fracDigits (amount : String) : Nat :=
  (((splitOnChar '.' amount.toList).drop 1).headD []).length

/-- Result classifier: a plain `Error` (the spec's `Format` error kind). -/
def isFormatError : Except JsError Int → Prop
  | .error (.error _) => True
  | _ => False

/-- Result classifier: an `InvalidPrecisionError` (the spec's
`PrecisionExceeded` kind). -/
def isPrecisionError : Except JsError Int → Prop
  | .error (.invalidPrecision _ _) => True
  | _ => False

/--
**C8.** For every input string and currency: `parseToMinor` signals a
`Format` error (a plain `Error`) on every malformed literal — scientific
notation, a character outside digits/point/minus, more than one decimal
point, or no digits at all — and signals the distinct
`InvalidPrecisionError` (never a `Format` error) exactly when the literal
is not malformed but its fractional part is longer than the currency's
decimals.  In particular `parseToMinor "100.001"` with 2 decimals signals
`InvalidPrecisionError` carrying the digit count 3 and the limit 2.
-/
theorem parseToMinor_error_discipline :
    (∀ amount c, malformedLiteral amount → isFormatError (parseToMinor amount c)) ∧
    (∀ amount c, isPrecisionError (parseToMinor amount c) ↔
      (¬malformedLiteral amount ∧ fracDigits amount > c.decimals)) ∧
    (∀ amount c, ¬malformedLiteral amount → fracDigits amount > c.decimals →
      ¬isFormatError (parseToMinor amount c)) ∧
    parseToMinor "100.001" ⟨"USD", 2⟩ = .error (.invalidPrecision 3 2) := by
  have hbig : ∀ o : Option Int,
      ¬isFormatError (bigIntToResult o) ∧ ¬isPrecisionError (bigIntToResult o) := by
    intro o
    cases o <;> exact ⟨fun h => h, fun h => h⟩
  have hcase : ∀ amount c,
      (malformedLiteral amount ∧ isFormatError (parseToMinor amount c) ∧
        ¬isPrecisionError (parseToMinor amount c)) ∨
      (¬malformedLiteral amount ∧ fracDigits amount > c.decimals ∧
        isPrecisionError (parseToMinor amount c) ∧
        ¬isFormatError (parseToMinor amount c)) ∨
      (¬malformedLiteral amount ∧ ¬(fracDigits amount > c.decimals) ∧
        ¬isPrecisionError (parseToMinor amount c) ∧
        ¬isFormatError (parseToMinor amount c)) := by
    intro amount c
    unfold malformedLiteral parseToMinor fracDigits
    by_cases h1 : (amount.toList.any fun ch => ch = 'e' ∨ ch = 'E') = true
    · rw [if_pos h1]
      exact .inl ⟨.inl h1, trivial, fun h => h⟩
    · rw [if_neg h1]
      by_cases h2 :
          (amount.toList.any fun ch => ¬(ch.isDigit ∨ ch = '.' ∨ ch = '-')) = true
      · rw [if_pos h2]
        exact .inl ⟨.inr (.inl h2), trivial, fun h => h⟩
      · rw [if_neg h2]
        by_cases h3 : (amount.toList.any Char.isDigit) = true
        · have h3' : ¬¬(amount.toList.any Char.isDigit) = true := fun hc => hc h3
          rw [if_neg h3']
          by_cases h4 : (splitOnChar '.' amount.toList).length > 2
          · rw [if_pos h4]
            exact .inl ⟨.inr (.inr (.inr h4)), trivial, fun h => h⟩
          · rw [if_neg h4]
            have hnotmal :
                ¬((amount.toList.any fun ch => ch = 'e' ∨ ch = 'E') = true ∨
                  (amount.toList.any fun ch =>
                    ¬(ch.isDigit ∨ ch = '.' ∨ ch = '-')) = true ∨
                  (amount.toList.any Char.isDigit) = false ∨
                  (splitOnChar '.' amount.toList).length > 2) := by
              intro hmal
              rcases hmal with h | h | h | h
              · exact h1 h
              · exact h2 h
              · rw [h] at h3
                cases h3
              · exact h4 h
            by_cases h5 :
                (((splitOnChar '.' amount.toList).drop 1).headD []).length > c.decimals
            · rw [if_pos h5]
              exact .inr (.inl ⟨hnotmal, h5, trivial, fun h => h⟩)
            · rw [if_neg h5]
              exact .inr (.inr ⟨hnotmal, h5, (hbig _).2, (hbig _).1⟩)
        · have h3f : (amount.toList.any Char.isDigit) = false := by
            cases hb : amount.toList.any Char.isDigit
            · rfl
            · exact absurd hb h3
          rw [if_pos h3]
          exact .inl ⟨.inr (.inr (.inl h3f)), trivial, fun h => h⟩
  refine ⟨?_, ?_, ?_, rfl⟩
  · intro amount c hmal
    rcases hcase amount c with h | h | h
    · exact h.2.1
    · exact absurd hmal h.1
    · exact absurd hmal h.1
  · intro amount c
    constructor
    · intro hprec
      rcases hcase amount c with h | h | h
      · exact absurd hprec h.2.2
      · exact ⟨h.1, h.2.1⟩
      · exact absurd hprec h.2.2.1
    · rintro ⟨hnm, hlen⟩
      rcases hcase amount c with h | h | h
      · exact absurd h.1 hnm
      · exact h.2.2.1
      · exact absurd hlen h.2.1
  · intro amount c hnm hlen
    rcases hcase amount c with h | h | h
    · exact absurd h.1 hnm
    · exact h.2.2.2
    · exact absurd hlen h.2.1

theorem parseToMinor_error_discipline_witness :
    malformedLiteral "1..2" ∧ isFormatError (parseToMinor "1..2" ⟨"USD", 2⟩) :=
  ⟨by decide, parseToMinor_error_discipline.1 "1..2" ⟨"USD", 2⟩ (by decide)⟩

/-!
## Money value objects (`src/money/Money.ts`)

A `Money` binds a scaled integer amount in minor units to a currency; only
the currency code takes part in the operations verified here.
-/

structure Money where
  minor : Int
  code : String
deriving DecidableEq

/-- A JavaScript `number | string` argument.  Numbers are restricted to the
integer values the claims exercise (an integer's `toString()` is its decimal
digit string). -/
inductive JsScalar where
  | str (s : String)
  | int (n : Int)
deriving DecidableEq

/-- `multiplier.toString()` as performed inside `parseMultiplier`. -/
def JsScalar.render : JsScalar → String
  | .str s => s
  | .int n => toString n

/-- `assertSameCurrency` (`src/money/guards.ts`): throws
`CurrencyMismatchError` when the two currency codes differ. -/
def assertSameCurrency (a b : Money) : Except JsError Unit :=
  if a.code ≠ b.code then .error (.currencyMismatch a.code b.code) else .ok ()

/-- `Money.equals`: compares currency codes and minor amounts structurally,
returning a boolean (it performs no currency assertion). -/
def Money.equals (a b : Money) : Bool :=
  a.code == b.code && a.minor == b.minor

/-- `Money.compare`: asserts equal currencies, then returns `-1`, `0` or `1`. -/
def Money.compare (a b : Money) : Except JsError Int :=
  (assertSameCurrency a b).map fun _ =>
    if a.minor < b.minor then -1 else if a.minor > b.minor then 1 else 0

/-- `Money.greaterThan`: asserts equal currencies, then compares. -/
def Money.greaterThan (a b : Money) : Except JsError Bool :=
  (assertSameCurrency a b).map fun _ => decide (a.minor > b.minor)

/-- `Money.lessThan`: asserts equal currencies, then compares. -/
def Money.lessThan (a b : Money) : Except JsError Bool :=
  (assertSameCurrency a b).map fun _ => decide (a.minor < b.minor)

/--
`Money.divide` (`src/money/Money.ts`): the zero guard uses strict equality
against the number `0` and the string `"0"` only
(`if (divisor === 0 || divisor === "0")`), then delegates to the arithmetic
`divide` on `this.minor`.
-/
def Money.divide (m : Money) (divisor : JsScalar)
    (rounding : Option RoundingMode) : Except JsError Money :=
  if divisor = .int 0 ∨ divisor = .str "0" then
    .error (.error "Division by zero")
  else
    (Monetra.divide m.minor divisor.render rounding).map fun v => ⟨v, m.code⟩

/--
**C5, counterexample.**  For the divisor literal `"0.0"` — whose exact-ratio
numerator is zero — `Money.divide` does *not* signal the library's
`DivisionByZero` error: the strict-equality guard misses `"0.0"`, and the
failure instead surfaces as the platform's `RangeError` raised by the
`product % 0n` expression inside the arithmetic `divide`.
-/
theorem divide_zeroLiteral_counterexample :
    Money.divide ⟨100, "USD"⟩ (.str "0.0") none =
      .error (.rangeError "Division by zero") ∧
    Money.divide ⟨100, "USD"⟩ (.str "0.0") none ≠
      .error (.error "Division by zero") :=
  ⟨rfl, fun hcon => JsError.noConfusion (Except.error.inj hcon)⟩

/--
**C5, amended.**  For every amount and rounding choice: divisors equal to
the number `0` or the string literal `"0"` are caught by the explicit guard
in `Money.divide` and signal the deliberate `Error("Division by zero")`
before any rounding logic.  Every other divisor literal whose exact-ratio
numerator is zero (such as `"0.0"` or `"0.00"`) slips past the guard, and
the modulo inside the arithmetic `divide` raises the platform's
`RangeError("Division by zero")` — still before any rounding logic, and
never returning a value — but not the library's `DivisionByZero` error.
-/
theorem divide_zero_divisor_contract :
    (∀ (m : Money) rounding,
      Money.divide m (.int 0) rounding = .error (.error "Division by zero")) ∧
    (∀ (m : Money) rounding,
      Money.divide m (.str "0") rounding = .error (.error "Division by zero")) ∧
    (∀ (m : Money) s rounding denominator,
      parseMultiplier s = .ok (0, denominator) → s ≠ "0" →
      Money.divide m (.str s) rounding = .error (.rangeError "Division by zero")) := by
  refine ⟨?_, ?_, ?_⟩
  · intro m rounding
    unfold Money.divide
    rw [if_pos (.inl rfl)]
  · intro m rounding
    unfold Money.divide
    rw [if_pos (.inr rfl)]
  · intro m s rounding denominator hparse hs
    unfold Money.divide
    have hguard : ¬(JsScalar.str s = .int 0 ∨ JsScalar.str s = .str "0") := by
      rintro (h | h)
      · exact JsScalar.noConfusion h
      · exact hs (JsScalar.str.inj h)
    rw [if_neg hguard]
    show (Monetra.divide m.minor s rounding).map _ = _
    simp only [Monetra.divide, hparse]
    rw [if_pos trivial]
    rfl

theorem divide_zero_divisor_contract_witness :
    parseMultiplier "0.0" = .ok (0, 10) ∧ "0.0" ≠ "0" ∧
      Money.divide ⟨100, "USD"⟩ (.str "0.0") none =
        .error (.rangeError "Division by zero") :=
  ⟨rfl, by decide,
    divide_zero_divisor_contract.2.2 ⟨100, "USD"⟩ "0.0" none 10 rfl (by decide)⟩

/--
**C9, counterexample.**  `Money.equals` on two value objects with different
currency codes does not signal a `CurrencyMismatch` error: it is a
boolean-valued operation that performs no currency assertion, and simply
returns `false`.
-/
theorem equals_mismatch_counterexample :
    Money.equals ⟨100, "USD"⟩ ⟨100, "EUR"⟩ = false := rfl

/--
**C9, amended.**  The ordering operations `compare`, `greaterThan` and
`lessThan` signal a `CurrencyMismatch` error whenever the two currency
codes differ.  `equals` does not signal: on differing codes it returns
`false`, and in general equality holds iff both the currency codes and the
underlying scaled-integer values agree (structural equality on
`(value, currency code)`).
-/
theorem comparison_currency_discipline :
    (∀ a b : Money, a.code ≠ b.code →
      a.compare b = .error (.currencyMismatch a.code b.code) ∧
      a.greaterThan b = .error (.currencyMismatch a.code b.code) ∧
      a.lessThan b = .error (.currencyMismatch a.code b.code) ∧
      a.equals b = false) ∧
    (∀ a b : Money, a.equals b = true ↔ (a.code = b.code ∧ a.minor = b.minor)) := by
  constructor
  · intro a b h
    refine ⟨?_, ?_, ?_, ?_⟩
    · unfold Money.compare assertSameCurrency
      rw [if_pos h]
      rfl
    · unfold Money.greaterThan assertSameCurrency
      rw [if_pos h]
      rfl
    · unfold Money.lessThan assertSameCurrency
      rw [if_pos h]
      rfl
    · unfold Money.equals
      have hb : (a.code == b.code) = false := by
        rw [beq_eq_false_iff_ne]
        exact h
      rw [hb, Bool.false_and]
  · intro a b
    unfold Money.equals
    rw [Bool.and_eq_true, beq_iff_eq, beq_iff_eq]

theorem comparison_currency_discipline_witness :
    ("USD" : String) ≠ "EUR" ∧
      Money.compare ⟨100, "USD"⟩ ⟨100, "EUR"⟩ =
        .error (.currencyMismatch "USD" "EUR") ∧
      Money.equals ⟨100, "USD"⟩ ⟨100, "EUR"⟩ = false :=
  ⟨by decide,
    (comparison_currency_discipline.1 ⟨100, "USD"⟩ ⟨100, "EUR"⟩ (by decide)).1,
    (comparison_currency_discipline.1 ⟨100, "USD"⟩ ⟨100, "EUR"⟩ (by decide)).2.2.2⟩

/-!
## Allocation engine (`src/money/allocation.ts`)

`allocate(amount, ratios)` first scales each JavaScript-number ratio to an
integer by counting its fractional decimal digits.  That decimal
decomposition (`value`, `decimals`) is taken as the input here, since the
claims quantify over weight lists and integer weights decompose as
`(w, 0)`.  The rest of the algorithm — normalization to a common scale,
truncating shares and remainders, the stable sort by remainder descending,
the leftover distribution loop and the restore-by-index sort — is embedded
step for step.  JavaScript's `Array.prototype.sort` is guaranteed stable,
so it is modelled by the stable `List.mergeSort` with the comparator
translated to a boolean "stays-before" relation.
-/

/-- A ratio after the `scaledRatios` decimal decomposition:
`value = BigInt(digits)`, `decimals` = number of fractional digits. -/
structure ScaledRatio where
  value : Int
  decimals : Nat
deriving DecidableEq

/-- One element of the `results` array built by `allocate`:
`{ share, remainder, index }`. -/
structure Alloc where
  share : Int
  rem : Int
  idx : Nat
deriving DecidableEq

/-- JavaScript's `reduce((sum, r) => sum + r, 0n)`, a left fold from `0`. -/
def sumInts (l : List Int) : Int := l.foldl (· + ·) 0

/-- The `normalizedRatios` step: align every ratio to the maximal decimal
count, so each becomes `value * 10 ^ (maxDecimals - decimals)`. -/
def normalizeRatios (rs : List ScaledRatio) : List Int :=
  let maxD := (rs.map (·.decimals)).foldl max 0
  rs.map fun r => r.value * 10 ^ (maxD - r.decimals)

/-- The `for` loop of `allocate` building `results`: entry `i` holds
`share = (amount * ratio_i) / total` (truncating) and
`remainder = (amount * ratio_i) % total`. -/
def mkEntriesFrom (amount total : Int) : Nat → List Int → List Alloc
  | _, [] => []
  | i, v :: rest =>
    ⟨(amount * v).tdiv total, (amount * v).tmod total, i⟩ ::
      mkEntriesFrom amount total (i + 1) rest

/-- The comparator `(a, b) => b.remainder > a.remainder ? 1 : (b.remainder <
a.remainder ? -1 : 0)` as a stays-before relation: `a` may stay before `b`
iff the comparator is `≤ 0`, i.e. `b.rem ≤ a.rem` (remainder descending). -/
def leRem (a b : Alloc) : Bool := decide (b.rem ≤ a.rem)

/-- The specification's ordering for distributing leftover units: remainder
descending with ties broken by original index ascending.  Written from the
spec's words, to be compared against the stable sort by `leRem`. -/
def leLex (a b : Alloc) : Bool :=
  decide (b.rem < a.rem ∨ (a.rem = b.rem ∧ a.idx ≤ b.idx))

/-- The restore comparator `(a, b) => a.index - b.index` (index ascending). -/
def leIdx (a b : Alloc) : Bool := decide (a.idx ≤ b.idx)

/-- `results[i].share += 1n` applied to the first `k` entries, as done by
the leftover-distribution loop. -/
def bumpFirst : Nat → List Alloc → List Alloc
  | 0, l => l
  | _ + 1, [] => []
  | k + 1, e :: rest => ⟨e.share + 1, e.rem, e.idx⟩ :: bumpFirst k rest

/-- The tail of `allocate` after the remainder sort: run the
leftover-distribution loop, re-sort by original index, and project the
shares.  The loop indexes `results[i]` for `i < Number(leftOver)`, which on
the JavaScript side is a `TypeError` crash if `leftOver` exceeded the
number of entries (it never does on valid inputs); a negative `leftOver`
runs the loop zero times, hence `Int.toNat`. -/
def distributeAndRestore (leftOver : Int) (sorted : List Alloc) :
    Except JsError (List Int) :=
  if leftOver.toNat ≤ sorted.length then
    .ok (((bumpFirst leftOver.toNat sorted).mergeSort leIdx).map (·.share))
  else .error (.typeError "Cannot read properties of undefined")

/-- The `results` array of `allocate` in construction order. -/
def entriesOf (amount : Int) (rs : List ScaledRatio) : List Alloc :=
  mkEntriesFrom amount (sumInts (normalizeRatios rs)) 0 (normalizeRatios rs)

/-- The full `allocate` pipeline, parameterized by the remainder-sort
relation so that the source comparator (`leRem`, stable sort) can be
compared with the specification's explicit tie-breaking order (`leLex`). -/
def allocateWith (le : Alloc → Alloc → Bool) (amount : Int)
    (rs : List ScaledRatio) : Except JsError (List Int) :=
  if rs = [] then .error (.error "Cannot allocate to empty ratios")
  else if sumInts (normalizeRatios rs) = 0 then
    .error (.error "Total ratio must be greater than zero")
  else
    distributeAndRestore
      (amount - sumInts ((entriesOf amount rs).map (·.share)))
      ((entriesOf amount rs).mergeSort le)

/-- Embedding of `allocate` (`src/money/allocation.ts`). -/
def allocate (amount : Int) (rs : List ScaledRatio) : Except JsError (List Int) :=
  allocateWith leRem amount rs

/-- The allocation algorithm as the specification words it: identical
pipeline, but the leftover units go to the entries that come first in the
explicit order "remainder descending, ties by original index ascending". -/
def allocateLexSpec (amount : Int) (rs : List ScaledRatio) :
    Except JsError (List Int) :=
  allocateWith leLex amount rs

theorem sumInts_go (l : List Int) (b : Int) :
    l.foldl (· + ·) b = b + l.foldl (· + ·) 0 := by
  induction l generalizing b with
  | nil => simp
  | cons a t ih =>
    show t.foldl (· + ·) (b + a) = b + t.foldl (· + ·) (0 + a)
    rw [ih (b + a), ih (0 + a)]
    ring

theorem sumInts_cons (a : Int) (l : List Int) :
    sumInts (a :: l) = a + sumInts l := by
  show l.foldl (· + ·) (0 + a) = a + sumInts l
  rw [sumInts_go]
  unfold sumInts
  ring

theorem sumInts_eq_sum (l : List Int) : sumInts l = l.sum := by
  induction l with
  | nil => rfl
  | cons a t ih => rw [sumInts_cons, List.sum_cons, ih]

theorem sumInts_perm {l₁ l₂ : List Int} (h : List.Perm l₁ l₂) : sumInts l₁ = sumInts l₂ := by
  rw [sumInts_eq_sum, sumInts_eq_sum]
  exact h.sum_eq

theorem sumInts_nonneg {l : List Int} (h : ∀ x ∈ l, 0 ≤ x) : 0 ≤ sumInts l := by
  induction l with
  | nil => exact le_refl 0
  | cons a t ih =>
    rw [sumInts_cons]
    have := h a (List.mem_cons_self a t)
    have := ih fun x hx => h x (List.mem_cons_of_mem a hx)
    omega

theorem sumInts_le_length_mul {l : List Int} {c : Int} (h : ∀ x ∈ l, x ≤ c) :
    sumInts l ≤ l.length * c := by
  induction l with
  | nil => simp [sumInts]
  | cons a t ih =>
    rw [sumInts_cons]
    have h1 := h a (List.mem_cons_self a t)
    have h2 := ih fun x hx => h x (List.mem_cons_of_mem a hx)
    have : (a :: t).length * c = t.length * c + c := by
      simp [List.length_cons]
      ring
    omega

theorem length_mkEntriesFrom (amount total : Int) :
    ∀ (i : Nat) (l : List Int), (mkEntriesFrom amount total i l).length = l.length := by
  intro i l
  induction l generalizing i with
  | nil => rfl
  | cons v rest ih => simp [mkEntriesFrom, ih]

theorem getElem_mkEntriesFrom (amount total : Int) :
    ∀ (i : Nat) (l : List Int) (j : Nat) (hj : j < l.length)
      (hj2 : j < (mkEntriesFrom amount total i l).length),
      (mkEntriesFrom amount total i l)[j] =
        ⟨(amount * l[j]).tdiv total, (amount * l[j]).tmod total, i + j⟩ := by
  intro i l
  induction l generalizing i with
  | nil => intro j hj; exact absurd hj (by simp)
  | cons v rest ih =>
    intro j hj hj2
    cases j with
    | zero => rfl
    | succ jq =>
      have := ih (i + 1) jq (by simpa using hj)
        (by rw [length_mkEntriesFrom]; simpa using hj)
      simpa [mkEntriesFrom, Nat.add_assoc, Nat.add_comm 1 jq] using this

theorem idx_ge_of_mem_mkEntriesFrom (amount total : Int) :
    ∀ (i : Nat) (l : List Int) (e : Alloc), e ∈ mkEntriesFrom amount total i l →
      i ≤ e.idx := by
  intro i l
  induction l generalizing i with
  | nil => intro e he; exact absurd he (by simp [mkEntriesFrom])
  | cons v rest ih =>
    intro e he
    rcases List.mem_cons.mp he with rfl | ht
    · exact le_refl _
    · have := ih (i + 1) e ht
      omega

theorem pairwise_idx_mkEntriesFrom (amount total : Int) :
    ∀ (i : Nat) (l : List Int),
      (mkEntriesFrom amount total i l).Pairwise fun a b => a.idx < b.idx := by
  intro i l
  induction l generalizing i with
  | nil => exact List.Pairwise.nil
  | cons v rest ih =>
    refine List.Pairwise.cons ?_ (ih (i + 1))
    intro e he
    have := idx_ge_of_mem_mkEntriesFrom amount total (i + 1) rest e he
    simpa using by omega

theorem map_idx_mkEntriesFrom (amount total : Int) :
    ∀ (i : Nat) (l : List Int),
      (mkEntriesFrom amount total i l).map (·.idx) = List.range' i l.length := by
  intro i l
  induction l generalizing i with
  | nil => rfl
  | cons v rest ih => simp [mkEntriesFrom, List.range'_succ, ih]

theorem sum_mkEntriesFrom (amount total : Int) :
    ∀ (i : Nat) (l : List Int),
      total * sumInts ((mkEntriesFrom amount total i l).map (·.share)) +
        sumInts ((mkEntriesFrom amount total i l).map (·.rem)) =
      amount * sumInts l := by
  intro i l
  induction l generalizing i with
  | nil => simp [mkEntriesFrom, sumInts]
  | cons v rest ih =>
    have hkey : total * (amount * v).tdiv total + (amount * v).tmod total =
        amount * v := Int.tdiv_add_tmod (amount * v) total
    have := ih (i + 1)
    simp only [mkEntriesFrom, List.map_cons, sumInts_cons]
    have hdist : total * ((amount * v).tdiv total +
        sumInts ((mkEntriesFrom amount total (i + 1) rest).map (·.share))) =
        total * (amount * v).tdiv total +
        total * sumInts ((mkEntriesFrom amount total (i + 1) rest).map (·.share)) := by
      ring
    rw [hdist]
    have hdist2 : amount * (v + sumInts rest) = amount * v + amount * sumInts rest := by
      ring
    rw [hdist2]
    linarith [hkey, this]

theorem mem_entry_bounds {amount total : Int} (ha : 0 ≤ amount) (ht : 0 < total) :
    ∀ (i : Nat) (l : List Int), (∀ v ∈ l, 0 ≤ v) →
      ∀ e ∈ mkEntriesFrom amount total i l, 0 ≤ e.rem ∧ e.rem < total := by
  intro i l
  induction l generalizing i with
  | nil => intro _ e he; exact absurd he (by simp [mkEntriesFrom])
  | cons v rest ih =>
    intro hl e he
    rcases List.mem_cons.mp he with rfl | htl
    · constructor
      · exact tmod_sign_nonneg total
          (mul_nonneg ha (hl v (List.mem_cons_self v rest)))
      · exact Int.tmod_lt_of_pos (amount * v) ht
    · exact ih (i + 1) (fun x hx => hl x (List.mem_cons_of_mem v hx)) e htl

theorem length_bumpFirst : ∀ (k : Nat) (l : List Alloc),
    (bumpFirst k l).length = l.length := by
  intro k l
  induction l generalizing k with
  | nil => cases k <;> rfl
  | cons e rest ih => cases k with
    | zero => rfl
    | succ k' => simp [bumpFirst, ih]

theorem getElem_bumpFirst : ∀ (k : Nat) (l : List Alloc) (j : Nat) (hj : j < l.length)
    (hj2 : j < (bumpFirst k l).length),
    (bumpFirst k l)[j] =
      if j < k then ⟨l[j].share + 1, l[j].rem, l[j].idx⟩ else l[j] := by
  intro k l
  induction l generalizing k with
  | nil => intro j hj; exact absurd hj (by simp)
  | cons e rest ih =>
    intro j hj hj2
    cases k with
    | zero => simp [bumpFirst]
    | succ kq =>
      cases j with
      | zero => simp [bumpFirst]
      | succ jq =>
        have := ih kq jq (by simpa using hj)
          (by rw [length_bumpFirst]; simpa using hj)
        simpa [bumpFirst, Nat.succ_lt_succ_iff] using this

theorem map_rem_bumpFirst : ∀ (k : Nat) (l : List Alloc),
    (bumpFirst k l).map (·.rem) = l.map (·.rem) := by
  intro k l
  induction l generalizing k with
  | nil => cases k <;> rfl
  | cons e rest ih => cases k with
    | zero => rfl
    | succ k' => simp [bumpFirst, ih]

theorem map_idx_bumpFirst : ∀ (k : Nat) (l : List Alloc),
    (bumpFirst k l).map (·.idx) = l.map (·.idx) := by
  intro k l
  induction l generalizing k with
  | nil => cases k <;> rfl
  | cons e rest ih => cases k with
    | zero => rfl
    | succ k' => simp [bumpFirst, ih]

theorem sum_share_bumpFirst : ∀ (k : Nat) (l : List Alloc), k ≤ l.length →
    sumInts ((bumpFirst k l).map (·.share)) =
      sumInts (l.map (·.share)) + (k : Int) := by
  intro k l
  induction l generalizing k with
  | nil =>
    intro hk
    have hz : k = 0 := by simpa using hk
    subst hz
    simp [bumpFirst, sumInts]
  | cons e rest ih =>
    intro hk
    cases k with
    | zero => simp [bumpFirst]
    | succ k' =>
      have := ih k' (by simpa using hk)
      simp only [bumpFirst, List.map_cons, sumInts_cons, this]
      push_cast
      ring

/-- A sorted permutation is unique once the sorting relation is
antisymmetric with respect to a key that is pairwise distinct in the list. -/
theorem eq_of_perm_of_pairwise_key {α β : Type _} {R : α → α → Prop} (key : α → β)
    (hanti : ∀ a b, R a b → R b a → key a = key b) :
    ∀ (l₁ l₂ : List α), List.Perm l₁ l₂ → l₁.Pairwise R → l₂.Pairwise R →
      l₁.Pairwise (fun a b => key a ≠ key b) → l₁ = l₂ := by
  intro l₁
  induction l₁ with
  | nil =>
    intro l₂ hp _ _ _
    exact (hp.symm.eq_nil).symm
  | cons a t₁ ih =>
    intro l₂ hp hR₁ hR₂ hkey
    cases l₂ with
    | nil => exact absurd hp.eq_nil (by simp)
    | cons b t₂ =>
      by_cases hab : a = b
      · subst hab
        rw [ih t₂ hp.cons_inv hR₁.of_cons hR₂.of_cons hkey.of_cons]
      · exfalso
        have hat2 : a ∈ t₂ := by
          have : a ∈ b :: t₂ := hp.subset (List.mem_cons_self a t₁)
          rcases List.mem_cons.mp this with h | h
          · exact absurd h hab
          · exact h
        have hbt1 : b ∈ t₁ := by
          have : b ∈ a :: t₁ := hp.symm.subset (List.mem_cons_self b t₂)
          rcases List.mem_cons.mp this with h | h
          · exact absurd h.symm hab
          · exact h
        have h1 : R a b := List.rel_of_pairwise_cons hR₁ hbt1
        have h2 : R b a := List.rel_of_pairwise_cons hR₂ hat2
        exact List.rel_of_pairwise_cons hkey hbt1 (hanti a b h1 h2)

/-- In a list whose keys are strictly increasing, an element with the
smaller key occurs before an element with the larger key. -/
theorem pair_sublist_of_key_lt {α : Type _} {key : α → Nat} :
    ∀ {l : List α}, l.Pairwise (fun x y => key x < key y) →
      ∀ {a b}, a ∈ l → b ∈ l → key b < key a → List.Sublist [b, a] l := by
  intro l
  induction l with
  | nil => intro _ a b ha; exact absurd ha (by simp)
  | cons c t ih =>
    intro hl a b ha hb hlt
    rcases List.mem_cons.mp ha with rfl | hat
    · rcases List.mem_cons.mp hb with rfl | hbt
      · omega
      · have := List.rel_of_pairwise_cons hl hbt
        omega
    · rcases List.mem_cons.mp hb with rfl | hbt
      · exact List.Sublist.cons₂ b (List.singleton_sublist.mpr hat)
      · exact List.Sublist.cons c (ih hl.of_cons hat hbt hlt)

/-- In a list without duplicates, `[x, y]` and `[y, x]` cannot both be
sublists unless `x = y`. -/
theorem eq_of_sublist_pair_swap {α : Type _} :
    ∀ {l : List α}, l.Nodup → ∀ {x y : α},
      List.Sublist [x, y] l → List.Sublist [y, x] l → x = y := by
  intro l
  induction l with
  | nil => intro _ x y h1; exact absurd h1 (by simp)
  | cons c t ih =>
    intro hnd x y h1 h2
    have hct : c ∉ t := (List.nodup_cons.mp hnd).1
    have hndt : t.Nodup := (List.nodup_cons.mp hnd).2
    cases h1 with
    | cons _ h1' =>
      cases h2 with
      | cons _ h2' => exact ih hndt h1' h2'
      | cons₂ _ h2' =>
        -- y = c and [x, y] <+ t, so c = y ∈ t
        exact absurd (h1'.subset (by simp)) hct
    | cons₂ _ h1' =>
      -- x = c and [y] <+ t
      cases h2 with
      | cons _ h2' =>
        -- [y, x] <+ t, so c = x ∈ t
        exact absurd (h2'.subset (by simp)) hct
      | cons₂ _ h2' =>
        -- y = c = x
        rfl

theorem leRem_trans : ∀ a b c : Alloc, leRem a b → leRem b c → leRem a c := by
  intro a b c hab hbc
  simp only [leRem, decide_eq_true_eq] at *
  omega

theorem leRem_total : ∀ a b : Alloc, leRem a b || leRem b a := by
  intro a b
  simp only [leRem, Bool.or_eq_true, decide_eq_true_eq]
  omega

theorem leLex_trans : ∀ a b c : Alloc, leLex a b → leLex b c → leLex a c := by
  intro a b c hab hbc
  simp only [leLex, decide_eq_true_eq] at *
  omega

theorem leLex_total : ∀ a b : Alloc, leLex a b || leLex b a := by
  intro a b
  simp only [leLex, Bool.or_eq_true, decide_eq_true_eq]
  omega

theorem leIdx_trans : ∀ a b c : Alloc, leIdx a b → leIdx b c → leIdx a c := by
  intro a b c hab hbc
  simp only [leIdx, decide_eq_true_eq] at *
  omega

theorem leIdx_total : ∀ a b : Alloc, leIdx a b || leIdx b a := by
  intro a b
  simp only [leIdx, Bool.or_eq_true, decide_eq_true_eq]
  omega

/-- The remainder-descending order with index tie-break, as a proposition. -/
def lexProp (a b : Alloc) : Prop := b.rem < a.rem ∨ (a.rem = b.rem ∧ a.idx ≤ b.idx)

theorem lexProp_key_antisymm : ∀ a b : Alloc, lexProp a b → lexProp b a → a.idx = b.idx := by
  intro a b hab hba
  unfold lexProp at hab hba
  omega

/--
The crux of the tie-breaking claim: on a list with strictly increasing
indices, the *stable* merge sort by the remainder-only comparator produces
exactly the same list as sorting by the explicit lexicographic order
"remainder descending, index ascending".
-/
theorem mergeSort_leRem_eq_leLex {l : List Alloc}
    (hidx : l.Pairwise fun a b => a.idx < b.idx) :
    l.mergeSort leRem = l.mergeSort leLex := by
  have hperm1 : List.Perm (l.mergeSort leRem) l := List.mergeSort_perm l leRem
  have hperm2 : List.Perm (l.mergeSort leLex) l := List.mergeSort_perm l leLex
  have hne : l.Pairwise fun a b => a.idx ≠ b.idx :=
    hidx.imp fun h => Nat.ne_of_lt h
  have hne1 : (l.mergeSort leRem).Pairwise fun a b => a.idx ≠ b.idx :=
    (List.Perm.pairwise_iff (fun h => Ne.symm h) hperm1).mpr hne
  have hs1 : (l.mergeSort leRem).Pairwise fun a b => leRem a b :=
    List.sorted_mergeSort leRem_trans leRem_total l
  have hs2 : (l.mergeSort leLex).Pairwise fun a b => leLex a b :=
    List.sorted_mergeSort leLex_trans leLex_total l
  have hnodup : ((l.mergeSort leRem).map (·.idx)).Nodup :=
    List.pairwise_map.mpr hne1
  have hR1 : (l.mergeSort leRem).Pairwise lexProp := by
    rw [List.pairwise_iff_forall_sublist]
    intro a b hab
    have h1 : leRem a b = true := List.pairwise_iff_forall_sublist.mp hs1 hab
    have h2 : a.idx ≠ b.idx := List.pairwise_iff_forall_sublist.mp hne1 hab
    simp only [leRem, decide_eq_true_eq] at h1
    by_cases hr : b.rem < a.rem
    · exact .inl hr
    · have hreq : a.rem = b.rem := by omega
      refine .inr ⟨hreq, ?_⟩
      by_contra hgt
      have hba : b.idx < a.idx := by omega
      have hamem : a ∈ l := hperm1.subset (hab.subset (by simp))
      have hbmem : b ∈ l := hperm1.subset (hab.subset (by simp))
      have hsubl : List.Sublist [b, a] l :=
        pair_sublist_of_key_lt hidx hamem hbmem hba
      have hlerem_ba : leRem b a = true := by
        simp only [leRem, decide_eq_true_eq]
        omega
      have hsub2 : List.Sublist [b, a] (l.mergeSort leRem) :=
        List.pair_sublist_mergeSort leRem_trans leRem_total hlerem_ba hsubl
      have hm1 : List.Sublist [a.idx, b.idx] ((l.mergeSort leRem).map (·.idx)) :=
        hab.map _
      have hm2 : List.Sublist [b.idx, a.idx] ((l.mergeSort leRem).map (·.idx)) :=
        hsub2.map _
      exact h2 (eq_of_sublist_pair_swap hnodup hm1 hm2)
  have hR2 : (l.mergeSort leLex).Pairwise lexProp := by
    refine hs2.imp ?_
    intro a b h
    simpa only [leLex, decide_eq_true_eq] using h
  exact eq_of_perm_of_pairwise_key (·.idx) lexProp_key_antisymm _ _
    (hperm1.trans hperm2.symm) hR1 hR2 hne1

/--
**C7.** The leftover units are added to the shares with the largest
remainders, ties among equal remainders being broken by original index
ascending: the stable remainder-descending sort used by `allocate` produces
exactly the same outcome as the specification's explicit ordering
(`allocateLexSpec`, remainder descending then index ascending), for every
input — so the algorithm is a deterministic function of its inputs — and
the returned list is in the original input-weight order.  In particular
`allocate 10000 [1, 1, 1] = [3334, 3333, 3333]`.
-/
theorem allocate_largest_remainder_tiebreak :
    (∀ amount rs, allocate amount rs = allocateLexSpec amount rs) ∧
    allocate 10000 [⟨1, 0⟩, ⟨1, 0⟩, ⟨1, 0⟩] = .ok [3334, 3333, 3333] := by
  constructor
  · intro amount rs
    unfold allocate allocateLexSpec allocateWith
    by_cases h1 : rs = []
    · rw [if_pos h1, if_pos h1]
    · rw [if_neg h1, if_neg h1]
      by_cases h2 : sumInts (normalizeRatios rs) = 0
      · rw [if_pos h2, if_pos h2]
      · rw [if_neg h2, if_neg h2]
        have hpw : (entriesOf amount rs).Pairwise fun a b => a.idx < b.idx :=
          pairwise_idx_mkEntriesFrom amount (sumInts (normalizeRatios rs)) 0
            (normalizeRatios rs)
        rw [mergeSort_leRem_eq_leLex hpw]
  · show allocateWith leRem 10000 [⟨1, 0⟩, ⟨1, 0⟩, ⟨1, 0⟩] = .ok [3334, 3333, 3333]
    unfold allocateWith
    rw [if_neg (by decide), if_neg (by decide)]
    rw [List.mergeSort_of_sorted (by decide)]
    unfold distributeAndRestore
    rw [if_pos (by decide)]
    rw [List.mergeSort_of_sorted (by decide)]
    rfl

theorem sumInts_append (l₁ l₂ : List Int) :
    sumInts (l₁ ++ l₂) = sumInts l₁ + sumInts l₂ := by
  rw [sumInts_eq_sum, sumInts_eq_sum, sumInts_eq_sum, List.sum_append]

theorem nonneg_normalizeRatios {rs : List ScaledRatio}
    (hw : ∀ r ∈ rs, 0 ≤ r.value) : ∀ v ∈ normalizeRatios rs, 0 ≤ v := by
  intro v hv
  unfold normalizeRatios at hv
  obtain ⟨r, hr, rfl⟩ := List.mem_map.mp hv
  exact mul_nonneg (hw r hr) (pow_nonneg (by norm_num) _)

theorem length_normalizeRatios (rs : List ScaledRatio) :
    (normalizeRatios rs).length = rs.length := by
  unfold normalizeRatios
  simp

/-- On a remainder-descending list of entries with remainders in
`[0, total)` whose remainder sum is exactly `total * k`, the first `k`
entries all have a strictly positive remainder. -/
theorem first_k_rem_pos {total : Int} (htotal : 0 < total)
    {sorted : List Alloc}
    (hsorted : sorted.Pairwise fun a b => b.rem ≤ a.rem)
    (hbounds : ∀ e ∈ sorted, 0 ≤ e.rem ∧ e.rem < total)
    {k : Nat} (hsum : sumInts (sorted.map (·.rem)) = total * (k : Int)) :
    ∀ j, j < k → ∀ (hj : j < sorted.length), 0 < sorted[j].rem := by
  intro j hjk hj
  by_contra hneg
  push_neg at hneg
  have hj0 : sorted[j].rem = 0 :=
    le_antisymm hneg (hbounds _ (List.getElem_mem hj)).1
  have hpg := List.pairwise_iff_getElem.mp hsorted
  have hLlen : (sorted.map (·.rem)).length = sorted.length := List.length_map _ _
  have hdrop0 : ∀ x ∈ (sorted.map (·.rem)).drop j, x = 0 := by
    intro x hx
    obtain ⟨m, hm, hxm⟩ := List.mem_iff_getElem.mp hx
    rw [List.getElem_drop] at hxm
    have hjm : j + m < sorted.length := by
      rw [List.length_drop, hLlen] at hm
      omega
    have hxmq : sorted[j + m].rem = x := by
      rw [← hxm]
      simp
    rcases Nat.eq_zero_or_pos m with hm0 | hmpos
    · subst hm0
      rw [← hxmq]
      simpa using hj0
    · have hle : sorted[j + m].rem ≤ sorted[j].rem :=
        hpg j (j + m) hj hjm (by omega)
      have hge : 0 ≤ sorted[j + m].rem :=
        (hbounds _ (List.getElem_mem hjm)).1
      omega
  have hsplit : sumInts (sorted.map (·.rem)) =
      sumInts ((sorted.map (·.rem)).take j) +
        sumInts ((sorted.map (·.rem)).drop j) := by
    rw [← sumInts_append, List.take_append_drop]
  have hdropsum : sumInts ((sorted.map (·.rem)).drop j) = 0 := by
    rw [sumInts_eq_sum]
    exact List.sum_eq_zero hdrop0
  have htakele : sumInts ((sorted.map (·.rem)).take j) ≤
      (((sorted.map (·.rem)).take j).length : Int) * (total - 1) := by
    refine sumInts_le_length_mul ?_
    intro x hx
    have hxL := List.mem_of_mem_take hx
    obtain ⟨e, he, rfl⟩ := List.mem_map.mp hxL
    have := (hbounds e he).2
    omega
  have htklen : ((sorted.map (·.rem)).take j).length = j := by
    rw [List.length_take]
    omega
  rw [htklen] at htakele
  have hjk' : (j : Int) ≤ (k : Int) - 1 := by
    have : j + 1 ≤ k := hjk
    omega
  have h1 : total * (k : Int) ≤ (j : Int) * (total - 1) := by
    rw [← hsum, hsplit, hdropsum, add_zero]
    exact htakele
  have h2 : (j : Int) * (total - 1) ≤ ((k : Int) - 1) * (total - 1) :=
    mul_le_mul_of_nonneg_right hjk' (by omega)
  have h3 : ((k : Int) - 1) * (total - 1) =
      (k : Int) * total - (k : Int) - total + 1 := by ring
  have h4 : total * (k : Int) = (k : Int) * total := mul_comm _ _
  have hk1 : 1 ≤ (k : Int) := by
    have : 1 ≤ k := by omega
    exact_mod_cast this
  linarith

/--
**C1, counterexample.**  The claim quantifies over every input amount, but
for a negative amount the truncating shares already over-allocate, the
leftover is negative, the distribution loop runs zero times, and the parts
do not sum to the amount: `allocate (-1) [1, 1]` returns `[0, 0]` whose sum
is `0 ≠ -1`.
-/
theorem allocate_negative_amount_counterexample :
    allocate (-1) [⟨1, 0⟩, ⟨1, 0⟩] = .ok [0, 0] ∧
    sumInts [0, 0] ≠ (-1 : Int) := by
  constructor
  · show allocateWith leRem (-1) [⟨1, 0⟩, ⟨1, 0⟩] = .ok [0, 0]
    unfold allocateWith
    rw [if_neg (by decide), if_neg (by decide)]
    rw [List.mergeSort_of_sorted (by decide)]
    unfold distributeAndRestore
    rw [if_pos (by decide)]
    rw [List.mergeSort_of_sorted (by decide)]
    rfl
  · decide

/--
After bumping the first `k` entries of a permutation `sorted` of the
entries and re-sorting by index, the element at position `i` is the
original entry `i` with its share possibly incremented — and incremented
only when its remainder is positive.  This bounds each final part within
one unit of its exact (total-scaled) share.
-/
theorem restored_share_bound
    (total : Int) (entries sorted : List Alloc) (k : Nat)
    (hb : ∀ e ∈ entries, 0 ≤ e.rem ∧ e.rem < total)
    (hidx : entries.map (·.idx) = List.range entries.length)
    (hperm : List.Perm sorted entries)
    (hkpos : ∀ j (hj : j < sorted.length), j < k → 0 < sorted[j].rem) :
    ∀ (i : Nat)
      (h1 : i < (((bumpFirst k sorted).mergeSort leIdx).map (·.share)).length)
      (h2 : i < entries.length),
      |(((bumpFirst k sorted).mergeSort leIdx).map (·.share))[i] * total -
        (total * entries[i].share + entries[i].rem)| < total := by
  intro i h1 h2
  have hi2 : i < ((bumpFirst k sorted).mergeSort leIdx).length := by simpa using h1
  have hBidx : (bumpFirst k sorted).map (·.idx) = sorted.map (·.idx) :=
    map_idx_bumpFirst _ _
  have hpermIdx : List.Perm (((bumpFirst k sorted).mergeSort leIdx).map (·.idx))
      (List.range entries.length) := by
    refine ((List.mergeSort_perm _ leIdx).map _).trans ?_
    rw [hBidx]
    exact hidx ▸ (hperm.map _)
  have hRsort : (((bumpFirst k sorted).mergeSort leIdx).map (·.idx)).Pairwise (· ≤ ·) := by
    refine List.pairwise_map.mpr ?_
    refine (List.sorted_mergeSort leIdx_trans leIdx_total _).imp ?_
    intro a b h
    simpa [leIdx] using h
  have hNodup : (((bumpFirst k sorted).mergeSort leIdx).map (·.idx)).Pairwise
      (fun a b => a ≠ b) :=
    hpermIdx.nodup_iff.mpr (List.nodup_range _)
  have hrange : ((bumpFirst k sorted).mergeSort leIdx).map (·.idx) =
      List.range entries.length :=
    eq_of_perm_of_pairwise_key id
      (fun a b hab hba => le_antisymm hab hba) _ _ hpermIdx hRsort
      (List.pairwise_le_range _) hNodup
  have hi3 : i < (((bumpFirst k sorted).mergeSort leIdx).map (·.idx)).length := by
    simpa using hi2
  have hidxi : ((bumpFirst k sorted).mergeSort leIdx)[i].idx = i := by
    have hmap : (((bumpFirst k sorted).mergeSort leIdx).map (·.idx))[i] = i := by
      rw [List.getElem_of_eq hrange]
      simp
    simpa using hmap
  have hmemB : ((bumpFirst k sorted).mergeSort leIdx)[i] ∈ bumpFirst k sorted :=
    List.mem_mergeSort.mp (List.getElem_mem hi2)
  obtain ⟨j, hjB, hBj⟩ := List.mem_iff_getElem.mp hmemB
  have hjS : j < sorted.length := by
    rw [length_bumpFirst] at hjB
    exact hjB
  have hBval := getElem_bumpFirst k sorted j hjS
    (by rw [length_bumpFirst]; exact hjS)
  have hsmem : sorted[j] ∈ entries := hperm.subset (List.getElem_mem hjS)
  obtain ⟨m, hm, hme⟩ := List.mem_iff_getElem.mp hsmem
  have hm2 : m < (entries.map (·.idx)).length := by simpa using hm
  have hmidx : entries[m].idx = m := by
    have hmap : (entries.map (·.idx))[m] = m := by
      rw [List.getElem_of_eq hidx]
      simp
    simpa using hmap
  have hBjidx : ((bumpFirst k sorted).mergeSort leIdx)[i].idx = sorted[j].idx := by
    rw [← hBj, hBval]
    split <;> rfl
  have hmi : m = i := by
    rw [hme] at hmidx
    rw [hBjidx] at hidxi
    omega
  subst hmi
  have hent : entries[m] = sorted[j] := hme
  have hresget : (((bumpFirst k sorted).mergeSort leIdx).map (·.share))[m] =
      ((bumpFirst k sorted).mergeSort leIdx)[m].share := by
    simp
  rw [hresget]
  have hbi : 0 ≤ entries[m].rem ∧ entries[m].rem < total :=
    hb _ (List.getElem_mem h2)
  rcases Nat.lt_or_ge j k with hjk | hjk
  · have hshare : ((bumpFirst k sorted).mergeSort leIdx)[m].share =
        entries[m].share + 1 := by
      rw [← hBj, hBval, if_pos hjk, hent]
    have hrpos : 0 < entries[m].rem := by
      rw [hent]
      exact hkpos j hjS hjk
    have e2 : (entries[m].share + 1) * total -
        (total * entries[m].share + entries[m].rem) =
        total - entries[m].rem := by ring
    rw [hshare, e2, abs_of_nonneg (by omega)]
    omega
  · have hshare : ((bumpFirst k sorted).mergeSort leIdx)[m].share =
        entries[m].share := by
      rw [← hBj, hBval, if_neg (by omega), hent]
    have e1 : entries[m].share * total -
        (total * entries[m].share + entries[m].rem) =
        -(entries[m].rem) := by ring
    rw [hshare, e1, abs_neg, abs_of_nonneg hbi.1]
    exact hbi.2

/--
Correctness of the leftover-distribution tail of `allocate`: starting from
entries whose remainders lie in `[0, total)`, whose shares and remainders
satisfy the division identity in sum, and whose indices are exactly
`0, …, n-1` in order, the final list sums to `amount` and each part stays
within one unit of its exact share.
-/
theorem distributeAndRestore_correct
    (amount total : Int) (entries : List Alloc)
    (htotal : 0 < total)
    (hlen : 0 < entries.length)
    (hb : ∀ e ∈ entries, 0 ≤ e.rem ∧ e.rem < total)
    (hsum : total * sumInts (entries.map (·.share)) +
        sumInts (entries.map (·.rem)) = amount * total)
    (hidx : entries.map (·.idx) = List.range entries.length) :
    ∃ res,
      distributeAndRestore (amount - sumInts (entries.map (·.share)))
        (entries.mergeSort leRem) = .ok res ∧
      sumInts res = amount ∧
      res.length = entries.length ∧
      ∀ (i : Nat) (h1 : i < res.length) (h2 : i < entries.length),
        |res[i] * total -
          (total * entries[i].share + entries[i].rem)| < total := by
  have hpermS : List.Perm (entries.mergeSort leRem) entries :=
    List.mergeSort_perm entries leRem
  have hR0 : 0 ≤ sumInts (entries.map (·.rem)) := by
    refine sumInts_nonneg ?_
    intro x hx
    obtain ⟨e, he, rfl⟩ := List.mem_map.mp hx
    exact (hb e he).1
  have hmaplen : (entries.map (·.rem)).length = entries.length := List.length_map _ _
  have hRle : sumInts (entries.map (·.rem)) ≤
      ((entries.length : Int)) * (total - 1) := by
    have h := sumInts_le_length_mul (l := entries.map (·.rem)) (c := total - 1) ?_
    · rw [hmaplen] at h
      exact h
    · intro x hx
      obtain ⟨e, he, rfl⟩ := List.mem_map.mp hx
      have := (hb e he).2
      omega
  have hLO : total * (amount - sumInts (entries.map (·.share))) =
      sumInts (entries.map (·.rem)) := by
    have e1 : total * (amount - sumInts (entries.map (·.share))) =
        amount * total - total * sumInts (entries.map (·.share)) := by ring
    linarith [hsum, e1]
  have hLOnn : 0 ≤ amount - sumInts (entries.map (·.share)) := by
    by_contra hcon
    push_neg at hcon
    have := mul_neg_of_pos_of_neg htotal hcon
    linarith [hR0, hLO]
  have hLOlt : amount - sumInts (entries.map (·.share)) < (entries.length : Int) := by
    by_contra hcon
    push_neg at hcon
    have hnz : (0 : Int) < entries.length := by exact_mod_cast hlen
    have h2 : (entries.length : Int) * (total - 1) < (entries.length : Int) * total :=
      mul_lt_mul_of_pos_left (by omega) hnz
    have h3 : (entries.length : Int) * total ≤
        (amount - sumInts (entries.map (·.share))) * total :=
      mul_le_mul_of_nonneg_right hcon (le_of_lt htotal)
    have h4 : (amount - sumInts (entries.map (·.share))) * total =
        total * (amount - sumInts (entries.map (·.share))) := mul_comm _ _
    linarith [hLO, hRle]
  have hk : (((amount - sumInts (entries.map (·.share))).toNat : Int)) =
      amount - sumInts (entries.map (·.share)) := Int.toNat_of_nonneg hLOnn
  have hklen : (amount - sumInts (entries.map (·.share))).toNat ≤
      (entries.mergeSort leRem).length := by
    rw [List.length_mergeSort]
    omega
  refine ⟨((bumpFirst (amount - sumInts (entries.map (·.share))).toNat
      (entries.mergeSort leRem)).mergeSort leIdx).map (·.share), ?_, ?_, ?_, ?_⟩
  · unfold distributeAndRestore
    rw [if_pos hklen]
  · have hp1 : List.Perm
        (((bumpFirst (amount - sumInts (entries.map (·.share))).toNat
          (entries.mergeSort leRem)).mergeSort leIdx).map (·.share))
        ((bumpFirst (amount - sumInts (entries.map (·.share))).toNat
          (entries.mergeSort leRem)).map (·.share)) :=
      (List.mergeSort_perm _ leIdx).map _
    rw [sumInts_perm hp1]
    rw [sum_share_bumpFirst _ _ hklen]
    have hp2 : List.Perm ((entries.mergeSort leRem).map (·.share))
        (entries.map (·.share)) := hpermS.map _
    rw [sumInts_perm hp2, hk]
    ring
  · simp [List.length_mergeSort, length_bumpFirst]
  · intro i h1 h2
    have hsortedP : (entries.mergeSort leRem).Pairwise (fun a b => b.rem ≤ a.rem) := by
      refine (List.sorted_mergeSort leRem_trans leRem_total entries).imp ?_
      intro a b h
      simpa [leRem] using h
    have hbS : ∀ e ∈ entries.mergeSort leRem, 0 ≤ e.rem ∧ e.rem < total :=
      fun e he => hb e (List.mem_mergeSort.mp he)
    have hsumS : sumInts ((entries.mergeSort leRem).map (·.rem)) =
        total * (((amount - sumInts (entries.map (·.share))).toNat : Int)) := by
      rw [sumInts_perm (hpermS.map _), hk]
      linarith [hLO]
    have hkpos : ∀ j (hj : j < (entries.mergeSort leRem).length),
        j < (amount - sumInts (entries.map (·.share))).toNat →
        0 < (entries.mergeSort leRem)[j].rem :=
      fun j hj hjk => first_k_rem_pos htotal hsortedP hbS hsumS j hjk hj
    exact restored_share_bound total entries (entries.mergeSort leRem) _
      hb hidx hpermS hkpos i h1 h2

/--
**C1, amended.**  For every *non-negative* amount and every non-empty list
of *non-negative* weights whose normalized total is positive, `allocate`
succeeds, the returned parts sum exactly to the amount, and each part stays
strictly within one minor unit of its exact proportional share:
`|res_i * total - amount * w_i| < total`, i.e.
`|res_i - amount * w_i / total| < 1`.  (The original claim quantified over
every input amount; it fails for negative amounts, see the counterexample.)
-/
theorem allocate_conserves_and_bounds (amount : Int) (rs : List ScaledRatio)
    (ha : 0 ≤ amount) (hne : rs ≠ [])
    (hw : ∀ r ∈ rs, 0 ≤ r.value)
    (hpos : 0 < sumInts (normalizeRatios rs)) :
    ∃ res, allocate amount rs = .ok res ∧
      sumInts res = amount ∧
      res.length = (normalizeRatios rs).length ∧
      ∀ (i : Nat) (h1 : i < res.length) (h2 : i < (normalizeRatios rs).length),
        |res[i] * sumInts (normalizeRatios rs) -
          amount * (normalizeRatios rs)[i]| < sumInts (normalizeRatios rs) := by
  have hElen : (entriesOf amount rs).length = (normalizeRatios rs).length :=
    length_mkEntriesFrom _ _ 0 _
  have hlenpos : 0 < (entriesOf amount rs).length := by
    rw [hElen, length_normalizeRatios]
    exact List.length_pos.mpr hne
  have hb : ∀ e ∈ entriesOf amount rs,
      0 ≤ e.rem ∧ e.rem < sumInts (normalizeRatios rs) :=
    mem_entry_bounds ha hpos 0 _ (nonneg_normalizeRatios hw)
  have hsum : sumInts (normalizeRatios rs) *
        sumInts ((entriesOf amount rs).map (·.share)) +
      sumInts ((entriesOf amount rs).map (·.rem)) =
      amount * sumInts (normalizeRatios rs) :=
    sum_mkEntriesFrom amount _ 0 _
  have hidx : (entriesOf amount rs).map (·.idx) =
      List.range (entriesOf amount rs).length := by
    show (mkEntriesFrom amount (sumInts (normalizeRatios rs)) 0
      (normalizeRatios rs)).map (·.idx) = _
    rw [map_idx_mkEntriesFrom, hElen, List.range_eq_range']
  obtain ⟨res, hok, hsumres, hlenres, hbound⟩ :=
    distributeAndRestore_correct amount (sumInts (normalizeRatios rs))
      (entriesOf amount rs) hpos hlenpos hb hsum hidx
  refine ⟨res, ?_, hsumres, ?_, ?_⟩
  · unfold allocate allocateWith
    rw [if_neg hne, if_neg (ne_of_gt hpos)]
    exact hok
  · rw [hlenres, hElen]
  · intro i h1 h2
    have h2' : i < (entriesOf amount rs).length := by
      rw [hElen]
      exact h2
    have hB := hbound i h1 h2'
    have hEget := getElem_mkEntriesFrom amount (sumInts (normalizeRatios rs)) 0
      (normalizeRatios rs) i h2 h2'
    have hident : sumInts (normalizeRatios rs) *
          (entriesOf amount rs)[i].share +
        (entriesOf amount rs)[i].rem =
        amount * (normalizeRatios rs)[i] := by
      have heq : (entriesOf amount rs)[i] =
          ⟨(amount * (normalizeRatios rs)[i]).tdiv (sumInts (normalizeRatios rs)),
           (amount * (normalizeRatios rs)[i]).tmod (sumInts (normalizeRatios rs)),
           0 + i⟩ := hEget
      rw [heq]
      exact Int.tdiv_add_tmod _ _
    rw [← hident]
    exact hB

theorem allocate_conserves_and_bounds_witness :
    (0 : Int) ≤ 10000 ∧
    ([⟨1, 0⟩, ⟨1, 0⟩, ⟨1, 0⟩] : List ScaledRatio) ≠ [] ∧
    (∀ r ∈ ([⟨1, 0⟩, ⟨1, 0⟩, ⟨1, 0⟩] : List ScaledRatio), 0 ≤ r.value) ∧
    0 < sumInts (normalizeRatios [⟨1, 0⟩, ⟨1, 0⟩, ⟨1, 0⟩]) ∧
    (∃ res, allocate 10000 [⟨1, 0⟩, ⟨1, 0⟩, ⟨1, 0⟩] = .ok res ∧
      sumInts res = 10000 ∧
      res.length = (normalizeRatios [⟨1, 0⟩, ⟨1, 0⟩, ⟨1, 0⟩]).length ∧
      ∀ (i : Nat) (h1 : i < res.length)
        (h2 : i < (normalizeRatios [⟨1, 0⟩, ⟨1, 0⟩, ⟨1, 0⟩]).length),
        |res[i] * sumInts (normalizeRatios [⟨1, 0⟩, ⟨1, 0⟩, ⟨1, 0⟩]) -
          10000 * (normalizeRatios [⟨1, 0⟩, ⟨1, 0⟩, ⟨1, 0⟩])[i]| <
          sumInts (normalizeRatios [⟨1, 0⟩, ⟨1, 0⟩, ⟨1, 0⟩])) :=
  ⟨by decide, by decide, by decide, by decide,
    allocate_conserves_and_bounds 10000 [⟨1, 0⟩, ⟨1, 0⟩, ⟨1, 0⟩]
      (by decide) (by decide) (by decide) (by decide)⟩

end Monetra
